import Mathlib

/-!
# Verification of the serde-binary codec

Shallow embedding of the `serde-binary` crate: the entry points and the error
type are translated from `src/lib.rs` and `src/error.rs`; the `Serializer` and
`Deserializer` modules are declared in `src/lib.rs` but their files are not in
the sources, so they are modelled from the specification (layout rules of
spec sections 4.1 and 4.2).  Byte buffers are `List Nat` with each entry a
byte value; machine integers are `Nat`/`Int` with explicit `% 2 ^ w`.
-/

set_option maxHeartbeats 1000000

namespace SerdeBinary

/-- Byte-order selection, mirroring `binary_rw::Endian` (external
collaborator crate). -/
inductive Endian where
  | big
  | little
deriving DecidableEq, Repr

/-- Integer widths of the serde data model (8/16/32/64 bits).  The
platform-width integers reach the serializer through their 64-bit serde
representation (`Serialize for usize` forwards to `serialize_u64`). -/
inductive Width where
  | w8
  | w16
  | w32
  | w64
deriving DecidableEq, Repr

/-- Number of bytes occupied by each width. -/
def Width.bytes : Width → Nat
  | .w8 => 1
  | .w16 => 2
  | .w32 => 4
  | .w64 => 8

/-- Errors of the external byte-stream crate `binary_rw` (a collaborator, not
part of this repository): a read past the end of the stream, or any other
stream failure carrying its message. -/
inductive BinaryError where
  | ReadPastEof
  | Custom (msg : String)
deriving DecidableEq, Repr

/-- Display string of a `binary_rw` error (external collaborator). -/
def BinaryError.display : BinaryError → String
  | .ReadPastEof => "read past end of stream"
  | .Custom m => m

/-- `Error` from `src/error.rs`: `Message(String)`, `TooManyItems`, and
`Binary(binary_rw::BinaryError)`. -/
inductive Error where
  | Message (s : String)
  | TooManyItems
  | Binary (e : BinaryError)
deriving DecidableEq, Repr

/-- Display of `Error`, following the `thiserror` attributes in
`src/error.rs`: `Message` shows its payload, `TooManyItems` a fixed
string, and `Binary` is transparent. -/
def Error.display : Error → String
  | .Message s => s
  | .TooManyItems => "sequence has too many items, limit is 2^32"
  | .Binary e => e.display

/-- The `#[from]` conversion `binary_rw::BinaryError -> Error` generated in
`src/error.rs`. -/
def Error.fromBinary (e : BinaryError) : Error := Error.Binary e

/-- `serde::ser::Error::custom` for `Error` (`src/error.rs`): builds
`Message(msg.to_string())`.  The function `disp` models the
`T: fmt::Display` bound. -/
def Error.serCustom {α : Type} (disp : α → String) (m : α) : Error :=
  Error.Message (disp m)

/-- `serde::de::Error::custom` for `Error` (`src/error.rs`): builds
`Message(msg.to_string())`. -/
def Error.deCustom {α : Type} (disp : α → String) (m : α) : Error :=
  Error.Message (disp m)

/-! ## Byte-level primitives of the stream (modelled from the spec:
`binary_rw`'s fixed-width reads and writes in a selectable endianness). -/

/-- Little-endian byte decomposition: `k` bytes of `n`, least significant
byte first. -/
def natToBytesLE : Nat → Nat → List Nat
  | 0, _ => []
  | k + 1, n => n % 256 :: natToBytesLE k (n / 256)

/-- Recompose a little-endian byte list into a natural number. -/
def bytesToNatLE : List Nat → Nat
  | [] => 0
  | b :: bs => b + 256 * bytesToNatLE bs

/-- Write an unsigned integer as `k` bytes in the given endianness. -/
def writeUint (k : Nat) (e : Endian) (n : Nat) : List Nat :=
  match e with
  | .little => natToBytesLE k n
  | .big => (natToBytesLE k n).reverse

/-- Read exactly `k` raw bytes; a short read is the stream's end-of-file
error wrapped as `Error.Binary` (spec section 4.2: a short read is a Binary
error surfaced unchanged). -/
def readExact (k : Nat) (bs : List Nat) : Except Error (List Nat × List Nat) :=
  if k ≤ bs.length then .ok (bs.take k, bs.drop k)
  else .error (Error.Binary BinaryError.ReadPastEof)

/-- Read a `k`-byte unsigned integer in the given endianness. -/
def readUint (k : Nat) (e : Endian) (bs : List Nat) : Except Error (Nat × List Nat) :=
  match readExact k bs with
  | .ok (chunk, rest) =>
    .ok ((match e with
          | .little => bytesToNatLE chunk
          | .big => bytesToNatLE chunk.reverse), rest)
  | .error err => .error err

/-- Two's-complement image of a signed integer in `k` bytes. -/
def encInt (k : Nat) (n : Int) : Nat := (n % ((2 : Int) ^ (8 * k))).toNat

/-- Signed reinterpretation of a `k`-byte unsigned read-back. -/
def decInt (k : Nat) (m : Nat) : Int :=
  if m < 2 ^ (8 * k - 1) then (m : Int) else (m : Int) - (2 : Int) ^ (8 * k)

/-- Valid Unicode scalar value test on a code point, as `char::from_u32`
checks it: below the surrogate range or between it and `0x110000`. -/
def isValidChar (c : Nat) : Bool :=
  decide (c < 0xD800) || (decide (0xE000 ≤ c) && decide (c < 0x110000))

/-! ### Lemmas about the byte-level primitives -/

theorem natToBytesLE_length (k n : Nat) : (natToBytesLE k n).length = k := by
  induction k generalizing n with
  | zero => simp [natToBytesLE]
  | succ k ih => simp [natToBytesLE, ih]

theorem writeUint_length (k : Nat) (e : Endian) (n : Nat) :
    (writeUint k e n).length = k := by
  cases e <;> simp [writeUint, natToBytesLE_length]

theorem bytesToNatLE_natToBytesLE (k n : Nat) :
    bytesToNatLE (natToBytesLE k n) = n % 2 ^ (8 * k) := by
  induction k generalizing n with
  | zero => simp [natToBytesLE, bytesToNatLE, Nat.mod_one]
  | succ k ih =>
    have hsplit : (2 : Nat) ^ (8 * (k + 1)) = 256 * 2 ^ (8 * k) := by
      have h8 : 8 * (k + 1) = 8 + 8 * k := by ring
      rw [h8, pow_add]; norm_num
    simp only [natToBytesLE, bytesToNatLE]
    rw [ih, hsplit, Nat.mod_mul]

theorem readExact_exact (c r : List Nat) (k : Nat) (hc : c.length = k) :
    readExact k (c ++ r) = .ok (c, r) := by
  subst hc
  simp [readExact, List.take_left, List.drop_left]

theorem readUint_writeUint (k : Nat) (e : Endian) (n : Nat) (rest : List Nat)
    (h : n < 2 ^ (8 * k)) :
    readUint k e (writeUint k e n ++ rest) = .ok (n, rest) := by
  have hv : bytesToNatLE (natToBytesLE k n) = n := by
    rw [bytesToNatLE_natToBytesLE, Nat.mod_eq_of_lt h]
  cases e with
  | little =>
    rw [readUint, writeUint, readExact_exact _ _ _ (natToBytesLE_length k n)]
    simp [hv]
  | big =>
    rw [readUint, writeUint,
      readExact_exact _ _ _ (by simp [natToBytesLE_length])]
    simp [hv]

theorem readExact_extend (k : Nat) (b s c r : List Nat)
    (h : readExact k b = .ok (c, r)) :
    readExact k (b ++ s) = .ok (c, r ++ s) := by
  unfold readExact at h ⊢
  by_cases hk : k ≤ b.length
  · rw [if_pos hk] at h
    obtain ⟨hc, hr⟩ : b.take k = c ∧ b.drop k = r := by simpa using h
    rw [if_pos (by simp; omega)]
    rw [List.take_append_of_le_length hk, List.drop_append_of_le_length hk, hc, hr]
  · rw [if_neg hk] at h
    exact absurd h (by simp)

theorem readUint_extend (k : Nat) (e : Endian) (b s : List Nat) (n : Nat)
    (r : List Nat) (h : readUint k e b = .ok (n, r)) :
    readUint k e (b ++ s) = .ok (n, r ++ s) := by
  unfold readUint at h ⊢
  cases hx : readExact k b with
  | ok cr =>
    obtain ⟨c, r'⟩ := cr
    rw [hx] at h
    simp only [Except.ok.injEq, Prod.mk.injEq] at h
    rw [readExact_extend k b s c r' hx]
    simp [h.1, h.2]
  | error err => rw [hx] at h; exact absurd h (by simp)

theorem readExact_notTMI (k : Nat) (bs : List Nat) :
    readExact k bs ≠ .error Error.TooManyItems := by
  unfold readExact
  split <;> simp

theorem readUint_notTMI (k : Nat) (e : Endian) (bs : List Nat) :
    readUint k e bs ≠ .error Error.TooManyItems := by
  unfold readUint
  cases hx : readExact k bs with
  | ok cr => simp
  | error err =>
    have := readExact_notTMI k bs
    rw [hx] at this
    simp only [ne_eq, Except.error.injEq] at this ⊢
    exact this

theorem readUint1_cons (e : Endian) (x : Nat) (rest : List Nat) :
    readUint 1 e (x :: rest) = .ok (x, rest) := by
  cases e <;> simp [readUint, readExact, bytesToNatLE]

theorem encInt_lt (k : Nat) (n : Int) : encInt k n < 2 ^ (8 * k) := by
  unfold encInt
  have hpos : (0 : Int) < (2 : Int) ^ (8 * k) := by positivity
  have h1 : 0 ≤ n % ((2 : Int) ^ (8 * k)) := Int.emod_nonneg n (ne_of_gt hpos)
  have h2 : n % ((2 : Int) ^ (8 * k)) < (2 : Int) ^ (8 * k) :=
    Int.emod_lt_of_pos n hpos
  have hc : ((2 : Int) ^ (8 * k)) = ((2 ^ (8 * k) : Nat) : Int) := by push_cast; ring
  rw [hc] at h2
  omega

theorem decInt_encInt (w : Width) (n : Int)
    (h1 : -(2 ^ (8 * w.bytes - 1)) ≤ n) (h2 : n < 2 ^ (8 * w.bytes - 1)) :
    decInt w.bytes (encInt w.bytes n) = n := by
  cases w <;>
    simp only [Width.bytes, encInt, decInt] at h1 h2 ⊢ <;>
    norm_num at h1 h2 ⊢ <;>
    omega

/-! ## The value model (spec section 3): the shapes the serde traversal can
announce, with machine integers as `Nat`/`Int` payloads and floats as raw
bit patterns (the codec only moves their bytes). -/

/-- An abstract value of the serde data model. Strings carry their UTF-8
bytes; `f32`/`f64` carry the IEEE bit pattern as a `Nat`; an enum value
carries the zero-based variant ordinal and its payload. -/
inductive Value where
  | unit
  | bool (b : Bool)
  | uint (w : Width) (n : Nat)
  | sint (w : Width) (n : Int)
  | f32 (bits : Nat)
  | f64 (bits : Nat)
  | char (c : Nat)
  | str (utf8 : List Nat)
  | bytes (bs : List Nat)
  | optNone
  | optSome (v : Value)
  | seq (vs : List Value)
  | tuple (vs : List Value)
  | map (ps : List (Value × Value))
  | unitStruct
  | newtypeStruct (v : Value)
  | tupleStruct (vs : List Value)
  | record (vs : List Value)
  | enum (idx : Nat) (payload : Value)

/-- The static shape of a target type, as the traversal driver announces it
to the decoder (spec section 4.2): sequences are homogeneous, tuples and
structs list their field shapes in declared order, an enum lists its
variants' payload shapes in declared order. -/
inductive Shape where
  | unit
  | bool
  | uint (w : Width)
  | sint (w : Width)
  | f32
  | f64
  | char
  | str
  | bytes
  | opt (s : Shape)
  | seq (elem : Shape)
  | tuple (ss : List Shape)
  | map (key val : Shape)
  | unitStruct
  | newtypeStruct (s : Shape)
  | tupleStruct (ss : List Shape)
  | record (ss : List Shape)
  | enum (variants : List Shape)

/-! ## Well-formedness: a value inhabits a shape with all payloads in range
(in Rust this is guaranteed by the static types). -/

mutual

/-- `wf sh v` holds when `v` is a value of shape `sh` whose numeric payloads
are in range and whose byte payloads are genuine bytes. -/
def wf : Shape → Value → Bool
  | .unit, .unit => true
  | .bool, .bool _ => true
  | .uint w, .uint w' n => decide (w = w') && decide (n < 2 ^ (8 * w.bytes))
  | .sint w, .sint w' n =>
    decide (w = w') && decide (-(2 ^ (8 * w.bytes - 1)) ≤ n) &&
      decide (n < 2 ^ (8 * w.bytes - 1))
  | .f32, .f32 bits => decide (bits < 2 ^ 32)
  | .f64, .f64 bits => decide (bits < 2 ^ 64)
  | .char, .char c => isValidChar c
  | .str, .str l => decide (l.length < 2 ^ 32) && l.all (fun b => decide (b < 256))
  | .bytes, .bytes l => decide (l.length < 2 ^ 32) && l.all (fun b => decide (b < 256))
  | .opt _, .optNone => true
  | .opt sh, .optSome v => wf sh v
  | .seq sh, .seq vs => decide (vs.length < 2 ^ 32) && wfCount sh vs
  | .tuple ss, .tuple vs => wfList ss vs
  | .map ksh vsh, .map ps => decide (ps.length < 2 ^ 32) && wfPairs ksh vsh ps
  | .unitStruct, .unitStruct => true
  | .newtypeStruct sh, .newtypeStruct v => wf sh v
  | .tupleStruct ss, .tupleStruct vs => wfList ss vs
  | .record ss, .record vs => wfList ss vs
  | .enum vars, .enum idx p => decide (idx < 2 ^ 32) && wfVariant vars idx p
  | _, _ => false
termination_by _sh v => (sizeOf v, 0)

/-- Fields of a tuple or struct, zipped against their declared shapes. -/
def wfList : List Shape → List Value → Bool
  | [], [] => true
  | s :: ss, v :: vs => wf s v && wfList ss vs
  | _, _ => false
termination_by _ss vs => (sizeOf vs, 0)

/-- Homogeneous sequence elements against the element shape. -/
def wfCount : Shape → List Value → Bool
  | _, [] => true
  | sh, v :: vs => wf sh v && wfCount sh vs
termination_by _sh vs => (sizeOf vs, 0)

/-- Map entries against the key and value shapes. -/
def wfPairs : Shape → Shape → List (Value × Value) → Bool
  | _, _, [] => true
  | ksh, vsh, (k, v) :: ps => wf ksh k && wf vsh v && wfPairs ksh vsh ps
termination_by _ksh _vsh ps => (sizeOf ps, 0)

/-- Enum payload against the declared variant at the given ordinal. -/
def wfVariant : List Shape → Nat → Value → Bool
  | [], _, _ => false
  | s :: _, 0, p => wf s p
  | _ :: rest, n + 1, p => wfVariant rest n p
termination_by vars _idx p => (sizeOf p, sizeOf vars)

end

/-! ## Encoder

Modelled from the spec: the `Serializer` of `src/serializer.rs` is declared
in `src/lib.rs` but its file is absent from the sources; spec section 4.1
fixes its layout rules.  Writes append to the bound stream, here the third
argument. -/

mutual

/-- Modelled from the spec: write one value's canonical byte representation
to the bound stream (spec section 4.1).  Length-prefixed constructs check
their length against `2 ^ 32` and fail with `TooManyItems` beyond it. -/
def serValue : Value → Endian → List Nat → Except Error (List Nat)
  | .unit, _, s => .ok s
  | .bool b, _, s => .ok (s ++ [if b then 1 else 0])
  | .uint w n, e, s => .ok (s ++ writeUint w.bytes e n)
  | .sint w n, e, s => .ok (s ++ writeUint w.bytes e (encInt w.bytes n))
  | .f32 bits, e, s => .ok (s ++ writeUint 4 e bits)
  | .f64 bits, e, s => .ok (s ++ writeUint 8 e bits)
  | .char c, e, s => .ok (s ++ writeUint 4 e c)
  | .str l, e, s =>
    if l.length < 2 ^ 32 then .ok (s ++ (writeUint 4 e l.length ++ l))
    else .error Error.TooManyItems
  | .bytes l, e, s =>
    if l.length < 2 ^ 32 then .ok (s ++ (writeUint 4 e l.length ++ l))
    else .error Error.TooManyItems
  | .optNone, _, s => .ok (s ++ [0])
  | .optSome v, e, s => serValue v e (s ++ [1])
  | .seq vs, e, s =>
    if vs.length < 2 ^ 32 then serValues vs e (s ++ writeUint 4 e vs.length)
    else .error Error.TooManyItems
  | .tuple vs, e, s => serValues vs e s
  | .map ps, e, s =>
    if ps.length < 2 ^ 32 then serPairs ps e (s ++ writeUint 4 e ps.length)
    else .error Error.TooManyItems
  | .unitStruct, _, s => .ok s
  | .newtypeStruct v, e, s => serValue v e s
  | .tupleStruct vs, e, s => serValues vs e s
  | .record vs, e, s => serValues vs e s
  | .enum idx p, e, s => serValue p e (s ++ writeUint 4 e idx)

/-- Write a list of values in order (sequence elements or tuple/struct
fields), threading the stream. -/
def serValues : List Value → Endian → List Nat → Except Error (List Nat)
  | [], _, s => .ok s
  | v :: vs, e, s =>
    match serValue v e s with
    | .ok s1 => serValues vs e s1
    | .error err => .error err

/-- Write map entries in order, each key then its value. -/
def serPairs : List (Value × Value) → Endian → List Nat → Except Error (List Nat)
  | [], _, s => .ok s
  | (k, v) :: ps, e, s =>
    match serValue k e s with
    | .ok s1 =>
      match serValue v e s1 with
      | .ok s2 => serPairs ps e s2
      | .error err => .error err
    | .error err => .error err

end

/-! ## Decoder

Modelled from the spec: the `Deserializer` of `src/deserializer.rs` is
declared in `src/lib.rs` but its file is absent from the sources; spec
section 4.2 fixes its behaviour as the one-for-one inverse of the encoder,
reading from the bound stream and leaving the remaining bytes. -/

/-- Run a prefix decoder `d` exactly `n` times, threading the remaining
bytes (spec section 4.2: bounded repetition driven by the count prefix). -/
def decodeMany {α : Type} (d : List Nat → Except Error (α × List Nat)) :
    Nat → List Nat → Except Error (List α × List Nat)
  | 0, bs => .ok ([], bs)
  | n + 1, bs =>
    match d bs with
    | .ok (a, bs1) =>
      match decodeMany d n bs1 with
      | .ok (as, bs2) => .ok (a :: as, bs2)
      | .error err => .error err
    | .error err => .error err

mutual

/-- Modelled from the spec: read one value of the expected shape from the
stream (spec section 4.2).  Booleans read any nonzero byte as true (as the
external reader does); an option presence byte other than 0 or 1, an
invalid code point, and an out-of-range variant ordinal are Message-kind
failures; a short read surfaces the stream's Binary error. -/
def decodeValue : Shape → Endian → List Nat → Except Error (Value × List Nat)
  | .unit, _, bs => .ok (.unit, bs)
  | .bool, e, bs =>
    match readUint 1 e bs with
    | .ok (b, bs1) => .ok (.bool (if b = 0 then false else true), bs1)
    | .error err => .error err
  | .uint w, e, bs =>
    match readUint w.bytes e bs with
    | .ok (n, bs1) => .ok (.uint w n, bs1)
    | .error err => .error err
  | .sint w, e, bs =>
    match readUint w.bytes e bs with
    | .ok (m, bs1) => .ok (.sint w (decInt w.bytes m), bs1)
    | .error err => .error err
  | .f32, e, bs =>
    match readUint 4 e bs with
    | .ok (bits, bs1) => .ok (.f32 bits, bs1)
    | .error err => .error err
  | .f64, e, bs =>
    match readUint 8 e bs with
    | .ok (bits, bs1) => .ok (.f64 bits, bs1)
    | .error err => .error err
  | .char, e, bs =>
    match readUint 4 e bs with
    | .ok (c, bs1) =>
      if isValidChar c then .ok (.char c, bs1)
      else .error (Error.Message "invalid character code point")
    | .error err => .error err
  | .str, e, bs =>
    match readUint 4 e bs with
    | .ok (len, bs1) =>
      match readExact len bs1 with
      | .ok (chunk, bs2) => .ok (.str chunk, bs2)
      | .error err => .error err
    | .error err => .error err
  | .bytes, e, bs =>
    match readUint 4 e bs with
    | .ok (len, bs1) =>
      match readExact len bs1 with
      | .ok (chunk, bs2) => .ok (.bytes chunk, bs2)
      | .error err => .error err
    | .error err => .error err
  | .opt sh, e, bs =>
    match readUint 1 e bs with
    | .ok (0, bs1) => .ok (.optNone, bs1)
    | .ok (1, bs1) =>
      match decodeValue sh e bs1 with
      | .ok (v, bs2) => .ok (.optSome v, bs2)
      | .error err => .error err
    | .ok (_, _) => .error (Error.Message "invalid option presence byte")
    | .error err => .error err
  | .seq sh, e, bs =>
    match readUint 4 e bs with
    | .ok (n, bs1) =>
      match decodeMany (fun b => decodeValue sh e b) n bs1 with
      | .ok (vs, bs2) => .ok (.seq vs, bs2)
      | .error err => .error err
    | .error err => .error err
  | .tuple ss, e, bs =>
    match decodeShapes ss e bs with
    | .ok (vs, bs1) => .ok (.tuple vs, bs1)
    | .error err => .error err
  | .map ksh vsh, e, bs =>
    match readUint 4 e bs with
    | .ok (n, bs1) =>
      match decodeMany (fun b =>
          match decodeValue ksh e b with
          | .ok (k, b1) =>
            match decodeValue vsh e b1 with
            | .ok (v, b2) => .ok ((k, v), b2)
            | .error err => .error err
          | .error err => .error err) n bs1 with
      | .ok (ps, bs2) => .ok (.map ps, bs2)
      | .error err => .error err
    | .error err => .error err
  | .unitStruct, _, bs => .ok (.unitStruct, bs)
  | .newtypeStruct sh, e, bs =>
    match decodeValue sh e bs with
    | .ok (v, bs1) => .ok (.newtypeStruct v, bs1)
    | .error err => .error err
  | .tupleStruct ss, e, bs =>
    match decodeShapes ss e bs with
    | .ok (vs, bs1) => .ok (.tupleStruct vs, bs1)
    | .error err => .error err
  | .record ss, e, bs =>
    match decodeShapes ss e bs with
    | .ok (vs, bs1) => .ok (.record vs, bs1)
    | .error err => .error err
  | .enum vars, e, bs =>
    match readUint 4 e bs with
    | .ok (idx, bs1) =>
      match decodeVariant vars idx e bs1 with
      | .ok (p, bs2) => .ok (.enum idx p, bs2)
      | .error err => .error err
    | .error err => .error err

/-- Read tuple or struct fields in declared order. -/
def decodeShapes : List Shape → Endian → List Nat → Except Error (List Value × List Nat)
  | [], _, bs => .ok ([], bs)
  | sh :: ss, e, bs =>
    match decodeValue sh e bs with
    | .ok (v, bs1) =>
      match decodeShapes ss e bs1 with
      | .ok (vs, bs2) => .ok (v :: vs, bs2)
      | .error err => .error err
    | .error err => .error err

/-- Select the decoding branch for a variant ordinal; an out-of-range
ordinal is the caller-visible schema failure (spec section 4.2). -/
def decodeVariant : List Shape → Nat → Endian → List Nat → Except Error (Value × List Nat)
  | [], _, _, _ => .error (Error.Message "invalid variant index")
  | sh :: _, 0, e, bs => decodeValue sh e bs
  | _ :: rest, n + 1, e, bs => decodeVariant rest n e bs

end

/-! ## Entry points, translated from `src/lib.rs`. -/

/-- `to_vec` (src/lib.rs lines 21-30): fresh `MemoryStream` (the empty
buffer), a `BinaryWriter` bound to it with the chosen endianness, one
`Serializer`; on success the stream's contents are returned. -/
def to_vec (value : Value) (endian : Endian) : Except Error (List Nat) :=
  serValue value endian []

/-- `from_vec` (src/lib.rs lines 33-42): the buffer becomes the stream, a
`BinaryReader` with the chosen endianness drives deserialization of the
target type, whose static shape is `sh`.  Bytes left after the value are
ignored. -/
def from_vec (sh : Shape) (value : List Nat) (endian : Endian) : Except Error Value :=
  match decodeValue sh endian value with
  | .ok (v, _) => .ok v
  | .error err => .error err

/-- `encode` (src/lib.rs lines 46-52): fresh stream, writer fixed to
`Endian::Big`, and the `Encode` implementation (modelled as a function of
the value, the endianness and the stream) writes itself. -/
def encode {α : Type} (encFn : α → Endian → List Nat → Except Error (List Nat))
    (encodable : α) : Except Error (List Nat) :=
  encFn encodable Endian.big []

/-- `decode` (src/lib.rs lines 55-62): the buffer becomes the stream, the
reader is fixed to `Endian::Big`, and the `Decode` implementation mutates a
default-constructed instance (`dflt` models `T::default()`); the mutated
instance is returned on success. -/
def decode {α : Type} (dflt : α)
    (decFn : α → Endian → List Nat → Except Error (α × List Nat))
    (buffer : List Nat) : Except Error α :=
  match decFn dflt Endian.big buffer with
  | .ok (x, _) => .ok x
  | .error err => .error err

/-- Whether a result is a success. -/
def isOkResult {α : Type} : Except Error α → Bool
  | .ok _ => true
  | .error _ => false

/-- Whether a result is specifically the length-limit failure. -/
def isTooManyItemsResult {α : Type} : Except Error α → Bool
  | .error Error.TooManyItems => true
  | _ => false

/-! ## The serializer emits the same bytes whatever is already in the
stream: writes only append, so the output of one encode call is independent
of any state left by earlier calls. -/

theorem emap_ok {α β : Type} (f : α → β) (a : α) :
    (Except.ok a : Except Error α).map f = .ok (f a) := rfl

theorem emap_error {α β : Type} (f : α → β) (err : Error) :
    (Except.error err : Except Error α).map f = .error err := rfl

mutual

theorem serValue_append (v : Value) (e : Endian) (s : List Nat) :
    serValue v e s = (serValue v e []).map (fun out => s ++ out) := by
  cases v with
  | unit => simp [serValue, emap_ok]
  | bool b => simp [serValue, emap_ok]
  | uint w n => simp [serValue, emap_ok]
  | sint w n => simp [serValue, emap_ok]
  | f32 bits => simp [serValue, emap_ok]
  | f64 bits => simp [serValue, emap_ok]
  | char c => simp [serValue, emap_ok]
  | str l =>
    simp only [serValue]
    split <;> simp [emap_ok, emap_error]
  | bytes l =>
    simp only [serValue]
    split <;> simp [emap_ok, emap_error]
  | optNone => simp [serValue, emap_ok]
  | optSome v =>
    simp only [serValue, List.nil_append]
    rw [serValue_append v e (s ++ [1]), serValue_append v e [1]]
    cases h : serValue v e [] <;> simp [emap_ok, emap_error]
  | seq vs =>
    simp only [serValue]
    split
    · rw [serValues_append vs e (s ++ writeUint 4 e vs.length),
        serValues_append vs e ([] ++ writeUint 4 e vs.length)]
      cases h : serValues vs e [] <;> simp [emap_ok, emap_error]
    · simp [emap_error]
  | tuple vs =>
    simp only [serValue]
    exact serValues_append vs e s
  | map ps =>
    simp only [serValue]
    split
    · rw [serPairs_append ps e (s ++ writeUint 4 e ps.length),
        serPairs_append ps e ([] ++ writeUint 4 e ps.length)]
      cases h : serPairs ps e [] <;> simp [emap_ok, emap_error]
    · simp [emap_error]
  | unitStruct => simp [serValue, emap_ok]
  | newtypeStruct v =>
    simp only [serValue]
    exact serValue_append v e s
  | tupleStruct vs =>
    simp only [serValue]
    exact serValues_append vs e s
  | record vs =>
    simp only [serValue]
    exact serValues_append vs e s
  | enum idx p =>
    simp only [serValue, List.nil_append]
    rw [serValue_append p e (s ++ writeUint 4 e idx),
      serValue_append p e (writeUint 4 e idx)]
    cases h : serValue p e [] <;> simp [emap_ok, emap_error]
termination_by sizeOf v

theorem serValues_append (vs : List Value) (e : Endian) (s : List Nat) :
    serValues vs e s = (serValues vs e []).map (fun out => s ++ out) := by
  cases vs with
  | nil => simp [serValues, emap_ok]
  | cons v vs =>
    simp only [serValues]
    rw [serValue_append v e s]
    cases h : serValue v e [] with
    | ok out1 =>
      simp only [emap_ok]
      rw [serValues_append vs e (s ++ out1), serValues_append vs e out1]
      cases h2 : serValues vs e [] <;> simp [emap_ok, emap_error]
    | error err => simp [emap_error]
termination_by sizeOf vs

theorem serPairs_append (ps : List (Value × Value)) (e : Endian) (s : List Nat) :
    serPairs ps e s = (serPairs ps e []).map (fun out => s ++ out) := by
  cases ps with
  | nil => simp [serPairs, emap_ok]
  | cons kv ps =>
    obtain ⟨k, v⟩ := kv
    simp only [serPairs]
    rw [serValue_append k e s]
    cases h : serValue k e [] with
    | ok out1 =>
      simp only [emap_ok]
      rw [serValue_append v e (s ++ out1), serValue_append v e out1]
      cases h2 : serValue v e [] with
      | ok out2 =>
        simp only [emap_ok]
        rw [serPairs_append ps e (s ++ out1 ++ out2),
          serPairs_append ps e (out1 ++ out2)]
        cases h3 : serPairs ps e [] <;> simp [emap_ok, emap_error]
      | error err => simp [emap_error]
    | error err => simp [emap_error]
termination_by sizeOf ps

end

/-! ## Round-trip: decoding the bytes produced by encoding a well-formed
value recovers the value and leaves any trailing bytes untouched. -/

mutual

theorem rt_value : ∀ (v : Value) (sh : Shape) (e : Endian), wf sh v = true →
    ∃ out, serValue v e [] = .ok out ∧
      ∀ rest, decodeValue sh e (out ++ rest) = .ok (v, rest)
  | .unit, sh, e, h => by
    cases sh <;> simp [wf] at h
    exact ⟨[], by simp [serValue], fun rest => by simp [decodeValue]⟩
  | .bool b, sh, e, h => by
    cases sh <;> simp [wf] at h
    refine ⟨[if b then 1 else 0], by simp [serValue], fun rest => ?_⟩
    cases b <;> simp [decodeValue, readUint1_cons]
  | .uint w n, sh, e, h => by
    cases sh <;> simp [wf] at h
    rename_i w'
    obtain ⟨hw, hn⟩ := h
    subst hw
    refine ⟨writeUint w'.bytes e n, by simp [serValue], fun rest => ?_⟩
    simp only [decodeValue]
    rw [readUint_writeUint w'.bytes e n rest hn]
  | .sint w n, sh, e, h => by
    cases sh <;> simp [wf] at h
    rename_i w'
    obtain ⟨⟨hw, h1⟩, h2⟩ := h
    subst hw
    refine ⟨writeUint w'.bytes e (encInt w'.bytes n), by simp [serValue],
      fun rest => ?_⟩
    simp only [decodeValue]
    rw [readUint_writeUint w'.bytes e (encInt w'.bytes n) rest (encInt_lt w'.bytes n)]
    simp [decInt_encInt w' n h1 h2]
  | .f32 bits, sh, e, h => by
    cases sh <;> simp [wf] at h
    refine ⟨writeUint 4 e bits, by simp [serValue], fun rest => ?_⟩
    simp only [decodeValue]
    rw [readUint_writeUint 4 e bits rest (by simpa using h)]
  | .f64 bits, sh, e, h => by
    cases sh <;> simp [wf] at h
    refine ⟨writeUint 8 e bits, by simp [serValue], fun rest => ?_⟩
    simp only [decodeValue]
    rw [readUint_writeUint 8 e bits rest (by simpa using h)]
  | .char c, sh, e, h => by
    cases sh <;> simp [wf] at h
    have hc : c < 2 ^ (8 * 4) := by
      simp [isValidChar] at h
      omega
    refine ⟨writeUint 4 e c, by simp [serValue], fun rest => ?_⟩
    simp only [decodeValue]
    rw [readUint_writeUint 4 e c rest hc]
    simp [h]
  | .str l, sh, e, h => by
    cases sh <;> simp [wf] at h
    refine ⟨writeUint 4 e l.length ++ l, by simp [serValue, h.1], fun rest => ?_⟩
    simp only [decodeValue, List.append_assoc]
    rw [readUint_writeUint 4 e l.length (l ++ rest) (by simpa using h.1)]
    simp [readExact_exact l rest l.length rfl]
  | .bytes l, sh, e, h => by
    cases sh <;> simp [wf] at h
    refine ⟨writeUint 4 e l.length ++ l, by simp [serValue, h.1], fun rest => ?_⟩
    simp only [decodeValue, List.append_assoc]
    rw [readUint_writeUint 4 e l.length (l ++ rest) (by simpa using h.1)]
    simp [readExact_exact l rest l.length rfl]
  | .optNone, sh, e, h => by
    cases sh <;> simp [wf] at h
    refine ⟨[0], by simp [serValue], fun rest => ?_⟩
    simp [decodeValue, readUint1_cons]
  | .optSome v, sh, e, h => by
    cases sh <;> simp [wf] at h
    rename_i sh'
    obtain ⟨out, hser, hdec⟩ := rt_value v sh' e h
    refine ⟨1 :: out, ?_, fun rest => ?_⟩
    · simp only [serValue, List.nil_append]
      rw [serValue_append v e [1], hser, emap_ok, List.singleton_append]
    · simp only [decodeValue, List.cons_append]
      rw [readUint1_cons e 1 (out ++ rest)]
      simp only [hdec rest]
  | .seq vs, sh, e, h => by
    cases sh <;> simp [wf] at h
    rename_i sh'
    obtain ⟨out, hser, hdec⟩ := rt_count vs sh' e h.2
    refine ⟨writeUint 4 e vs.length ++ out, ?_, fun rest => ?_⟩
    · simp only [serValue, List.nil_append]
      rw [if_pos (show vs.length < 2 ^ 32 by simpa using h.1)]
      rw [serValues_append vs e (writeUint 4 e vs.length), hser, emap_ok]
    · simp only [decodeValue, List.append_assoc]
      rw [readUint_writeUint 4 e vs.length (out ++ rest) (by simpa using h.1)]
      simp [hdec rest]
  | .tuple vs, sh, e, h => by
    cases sh <;> simp [wf] at h
    rename_i ss
    obtain ⟨out, hser, hdec⟩ := rt_list vs ss e h
    refine ⟨out, by simp only [serValue]; exact hser, fun rest => ?_⟩
    simp only [decodeValue]
    rw [hdec rest]
  | .map ps, sh, e, h => by
    cases sh <;> simp [wf] at h
    rename_i ksh vsh
    obtain ⟨out, hser, hdec⟩ := rt_pairs ps ksh vsh e h.2
    refine ⟨writeUint 4 e ps.length ++ out, ?_, fun rest => ?_⟩
    · simp only [serValue, List.nil_append]
      rw [if_pos (show ps.length < 2 ^ 32 by simpa using h.1)]
      rw [serPairs_append ps e (writeUint 4 e ps.length), hser, emap_ok]
    · simp only [decodeValue, List.append_assoc]
      rw [readUint_writeUint 4 e ps.length (out ++ rest) (by simpa using h.1)]
      simp [hdec rest]
  | .unitStruct, sh, e, h => by
    cases sh <;> simp [wf] at h
    exact ⟨[], by simp [serValue], fun rest => by simp [decodeValue]⟩
  | .newtypeStruct v, sh, e, h => by
    cases sh <;> simp [wf] at h
    rename_i sh'
    obtain ⟨out, hser, hdec⟩ := rt_value v sh' e h
    refine ⟨out, by simp only [serValue]; exact hser, fun rest => ?_⟩
    simp only [decodeValue]
    rw [hdec rest]
  | .tupleStruct vs, sh, e, h => by
    cases sh <;> simp [wf] at h
    rename_i ss
    obtain ⟨out, hser, hdec⟩ := rt_list vs ss e h
    refine ⟨out, by simp only [serValue]; exact hser, fun rest => ?_⟩
    simp only [decodeValue]
    rw [hdec rest]
  | .record vs, sh, e, h => by
    cases sh <;> simp [wf] at h
    rename_i ss
    obtain ⟨out, hser, hdec⟩ := rt_list vs ss e h
    refine ⟨out, by simp only [serValue]; exact hser, fun rest => ?_⟩
    simp only [decodeValue]
    rw [hdec rest]
  | .enum idx p, sh, e, h => by
    cases sh <;> simp [wf] at h
    rename_i vars
    obtain ⟨out, hser, hdec⟩ := rt_variant p vars idx e h.2
    refine ⟨writeUint 4 e idx ++ out, ?_, fun rest => ?_⟩
    · simp only [serValue, List.nil_append]
      rw [serValue_append p e (writeUint 4 e idx), hser, emap_ok]
    · simp only [decodeValue, List.append_assoc]
      rw [readUint_writeUint 4 e idx (out ++ rest) (by simpa using h.1)]
      simp [hdec rest]
termination_by v => (sizeOf v, 0)

theorem rt_list : ∀ (vs : List Value) (ss : List Shape) (e : Endian),
    wfList ss vs = true →
    ∃ out, serValues vs e [] = .ok out ∧
      ∀ rest, decodeShapes ss e (out ++ rest) = .ok (vs, rest)
  | [], ss, e, h => by
    cases ss <;> simp [wfList] at h
    exact ⟨[], by simp [serValues], fun rest => by simp [decodeShapes]⟩
  | v :: vs, ss, e, h => by
    cases ss with
    | nil => simp [wfList] at h
    | cons s ss =>
      simp [wfList] at h
      obtain ⟨out1, hser1, hdec1⟩ := rt_value v s e h.1
      obtain ⟨out2, hser2, hdec2⟩ := rt_list vs ss e h.2
      refine ⟨out1 ++ out2, ?_, fun rest => ?_⟩
      · simp only [serValues, hser1]
        rw [serValues_append vs e out1, hser2, emap_ok]
      · simp only [decodeShapes, List.append_assoc]
        simp [hdec1 (out2 ++ rest), hdec2 rest]
termination_by vs => (sizeOf vs, 0)

theorem rt_count : ∀ (vs : List Value) (sh : Shape) (e : Endian),
    wfCount sh vs = true →
    ∃ out, serValues vs e [] = .ok out ∧
      ∀ rest, decodeMany (fun b => decodeValue sh e b) vs.length (out ++ rest) =
        .ok (vs, rest)
  | [], sh, e, h =>
    ⟨[], by simp [serValues], fun rest => by simp [decodeMany]⟩
  | v :: vs, sh, e, h => by
    simp [wfCount] at h
    obtain ⟨out1, hser1, hdec1⟩ := rt_value v sh e h.1
    obtain ⟨out2, hser2, hdec2⟩ := rt_count vs sh e h.2
    refine ⟨out1 ++ out2, ?_, fun rest => ?_⟩
    · simp only [serValues, hser1]
      rw [serValues_append vs e out1, hser2, emap_ok]
    · simp only [List.length_cons, decodeMany, List.append_assoc]
      simp [hdec1 (out2 ++ rest), hdec2 rest]
termination_by vs => (sizeOf vs, 0)

theorem rt_pairs : ∀ (ps : List (Value × Value)) (ksh vsh : Shape) (e : Endian),
    wfPairs ksh vsh ps = true →
    ∃ out, serPairs ps e [] = .ok out ∧
      ∀ rest, decodeMany (fun b =>
          match decodeValue ksh e b with
          | .ok (k, b1) =>
            match decodeValue vsh e b1 with
            | .ok (v, b2) => .ok ((k, v), b2)
            | .error err => .error err
          | .error err => .error err) ps.length (out ++ rest) =
        .ok (ps, rest)
  | [], ksh, vsh, e, h =>
    ⟨[], by simp [serPairs], fun rest => by simp [decodeMany]⟩
  | (k, v) :: ps, ksh, vsh, e, h => by
    simp [wfPairs] at h
    obtain ⟨outk, hserk, hdeck⟩ := rt_value k ksh e h.1.1
    obtain ⟨outv, hserv, hdecv⟩ := rt_value v vsh e h.1.2
    obtain ⟨out2, hser2, hdec2⟩ := rt_pairs ps ksh vsh e h.2
    refine ⟨outk ++ outv ++ out2, ?_, fun rest => ?_⟩
    · simp only [serPairs, hserk]
      simp only [serValue_append v e outk, hserv, emap_ok]
      rw [serPairs_append ps e (outk ++ outv), hser2, emap_ok]
    · simp only [List.length_cons, decodeMany, List.append_assoc]
      simp [hdeck (outv ++ (out2 ++ rest)), hdecv (out2 ++ rest), hdec2 rest]
termination_by ps => (sizeOf ps, 0)

theorem rt_variant : ∀ (p : Value) (vars : List Shape) (idx : Nat) (e : Endian),
    wfVariant vars idx p = true →
    ∃ out, serValue p e [] = .ok out ∧
      ∀ rest, decodeVariant vars idx e (out ++ rest) = .ok (p, rest)
  | p, [], idx, e, h => by simp [wfVariant] at h
  | p, s :: rest', 0, e, h => by
    simp [wfVariant] at h
    obtain ⟨out, hser, hdec⟩ := rt_value p s e h
    exact ⟨out, hser, fun rest => by simp only [decodeVariant]; exact hdec rest⟩
  | p, s :: rest', n + 1, e, h => by
    simp [wfVariant] at h
    obtain ⟨out, hser, hdec⟩ := rt_variant p rest' n e h
    exact ⟨out, hser, fun rest => by simp only [decodeVariant]; exact hdec rest⟩
termination_by p vars => (sizeOf p, sizeOf vars)

end

/-! ## The decoder never raises the length-limit error: a stored count is
read back as an unsigned 32-bit value, not compared against a limit. -/

theorem ne_TMI_of_eq_error {α β : Type} {x : Except Error α} {err : Error}
    (hx : x ≠ .error Error.TooManyItems) (heq : x = .error err) :
    (.error err : Except Error β) ≠ .error Error.TooManyItems := by
  intro hc
  apply hx
  rw [heq]
  simpa using hc

theorem decodeMany_notTMI {α : Type} (d : List Nat → Except Error (α × List Nat))
    (hd : ∀ bs, d bs ≠ .error Error.TooManyItems) :
    ∀ (n : Nat) (bs : List Nat), decodeMany d n bs ≠ .error Error.TooManyItems := by
  intro n
  induction n with
  | zero => intro bs; simp [decodeMany]
  | succ n ih =>
    intro bs
    simp only [decodeMany]
    split
    · split
      · simp
      · rename_i err heq
        exact ne_TMI_of_eq_error (ih _) heq
    · rename_i err heq
      exact ne_TMI_of_eq_error (hd bs) heq

mutual

theorem decodeValue_notTMI : ∀ (sh : Shape) (e : Endian) (bs : List Nat),
    decodeValue sh e bs ≠ .error Error.TooManyItems
  | .unit, e, bs => by simp [decodeValue]
  | .bool, e, bs => by
    simp only [decodeValue]
    split
    · simp
    · rename_i err heq
      exact ne_TMI_of_eq_error (readUint_notTMI 1 e bs) heq
  | .uint w, e, bs => by
    simp only [decodeValue]
    split
    · simp
    · rename_i err heq
      exact ne_TMI_of_eq_error (readUint_notTMI w.bytes e bs) heq
  | .sint w, e, bs => by
    simp only [decodeValue]
    split
    · simp
    · rename_i err heq
      exact ne_TMI_of_eq_error (readUint_notTMI w.bytes e bs) heq
  | .f32, e, bs => by
    simp only [decodeValue]
    split
    · simp
    · rename_i err heq
      exact ne_TMI_of_eq_error (readUint_notTMI 4 e bs) heq
  | .f64, e, bs => by
    simp only [decodeValue]
    split
    · simp
    · rename_i err heq
      exact ne_TMI_of_eq_error (readUint_notTMI 8 e bs) heq
  | .char, e, bs => by
    simp only [decodeValue]
    split
    · split <;> simp
    · rename_i err heq
      exact ne_TMI_of_eq_error (readUint_notTMI 4 e bs) heq
  | .str, e, bs => by
    simp only [decodeValue]
    split
    · split
      · simp
      · rename_i err heq
        exact ne_TMI_of_eq_error (readExact_notTMI _ _) heq
    · rename_i err heq
      exact ne_TMI_of_eq_error (readUint_notTMI 4 e bs) heq
  | .bytes, e, bs => by
    simp only [decodeValue]
    split
    · split
      · simp
      · rename_i err heq
        exact ne_TMI_of_eq_error (readExact_notTMI _ _) heq
    · rename_i err heq
      exact ne_TMI_of_eq_error (readUint_notTMI 4 e bs) heq
  | .opt sh, e, bs => by
    simp only [decodeValue]
    split
    · simp
    · split
      · simp
      · rename_i err heq
        exact ne_TMI_of_eq_error (decodeValue_notTMI sh e _) heq
    · simp
    · rename_i err heq
      exact ne_TMI_of_eq_error (readUint_notTMI 1 e bs) heq
  | .seq sh, e, bs => by
    simp only [decodeValue]
    split
    · split
      · simp
      · rename_i err heq
        exact ne_TMI_of_eq_error
          (decodeMany_notTMI _ (fun b => decodeValue_notTMI sh e b) _ _) heq
    · rename_i err heq
      exact ne_TMI_of_eq_error (readUint_notTMI 4 e bs) heq
  | .tuple ss, e, bs => by
    simp only [decodeValue]
    split
    · simp
    · rename_i err heq
      exact ne_TMI_of_eq_error (decodeShapes_notTMI ss e bs) heq
  | .map ksh vsh, e, bs => by
    have hd : ∀ b, (match decodeValue ksh e b with
        | .ok (k, b1) =>
          match decodeValue vsh e b1 with
          | .ok (v, b2) => .ok ((k, v), b2)
          | .error err => .error err
        | .error err => .error err :
          Except Error ((Value × Value) × List Nat)) ≠
        .error Error.TooManyItems := by
      intro b
      split
      · split
        · simp
        · rename_i err heq
          exact ne_TMI_of_eq_error (decodeValue_notTMI vsh e _) heq
      · rename_i err heq
        exact ne_TMI_of_eq_error (decodeValue_notTMI ksh e b) heq
    simp only [decodeValue]
    split
    · split
      · simp
      · rename_i err heq
        exact ne_TMI_of_eq_error (decodeMany_notTMI _ hd _ _) heq
    · rename_i err heq
      exact ne_TMI_of_eq_error (readUint_notTMI 4 e bs) heq
  | .unitStruct, e, bs => by simp [decodeValue]
  | .newtypeStruct sh, e, bs => by
    simp only [decodeValue]
    split
    · simp
    · rename_i err heq
      exact ne_TMI_of_eq_error (decodeValue_notTMI sh e bs) heq
  | .tupleStruct ss, e, bs => by
    simp only [decodeValue]
    split
    · simp
    · rename_i err heq
      exact ne_TMI_of_eq_error (decodeShapes_notTMI ss e bs) heq
  | .record ss, e, bs => by
    simp only [decodeValue]
    split
    · simp
    · rename_i err heq
      exact ne_TMI_of_eq_error (decodeShapes_notTMI ss e bs) heq
  | .enum vars, e, bs => by
    simp only [decodeValue]
    split
    · split
      · simp
      · rename_i err heq
        exact ne_TMI_of_eq_error (decodeVariant_notTMI vars _ e _) heq
    · rename_i err heq
      exact ne_TMI_of_eq_error (readUint_notTMI 4 e bs) heq
termination_by sh => sizeOf sh

theorem decodeShapes_notTMI : ∀ (ss : List Shape) (e : Endian) (bs : List Nat),
    decodeShapes ss e bs ≠ .error Error.TooManyItems
  | [], e, bs => by simp [decodeShapes]
  | sh :: ss, e, bs => by
    simp only [decodeShapes]
    split
    · split
      · simp
      · rename_i err heq
        exact ne_TMI_of_eq_error (decodeShapes_notTMI ss e _) heq
    · rename_i err heq
      exact ne_TMI_of_eq_error (decodeValue_notTMI sh e bs) heq
termination_by ss => sizeOf ss

theorem decodeVariant_notTMI : ∀ (vars : List Shape) (idx : Nat) (e : Endian)
    (bs : List Nat), decodeVariant vars idx e bs ≠ .error Error.TooManyItems
  | [], idx, e, bs => by simp [decodeVariant]
  | sh :: rest', 0, e, bs => by
    simp only [decodeVariant]
    exact decodeValue_notTMI sh e bs
  | sh :: rest', n + 1, e, bs => by
    simp only [decodeVariant]
    exact decodeVariant_notTMI rest' n e bs
termination_by vars => sizeOf vars

end

/-! ## The decoder is a prefix decoder: a successful parse is unaffected by
extra trailing bytes, which come back in the unconsumed remainder. -/

theorem decodeMany_extend {α : Type} (d : List Nat → Except Error (α × List Nat))
    (hd : ∀ b s a r, d b = .ok (a, r) → d (b ++ s) = .ok (a, r ++ s)) :
    ∀ (n : Nat) (b s : List Nat) (as : List α) (r : List Nat),
      decodeMany d n b = .ok (as, r) →
      decodeMany d n (b ++ s) = .ok (as, r ++ s) := by
  intro n
  induction n with
  | zero =>
    intro b s as r h
    simp only [decodeMany, Except.ok.injEq, Prod.mk.injEq] at h
    obtain ⟨hv, hr⟩ := h
    subst hv
    subst hr
    simp [decodeMany]
  | succ n ih =>
    intro b s as r h
    simp only [decodeMany] at h ⊢
    split at h
    · rename_i a bs1 heq
      split at h
      · rename_i as2 bs2 heq2
        simp only [Except.ok.injEq, Prod.mk.injEq] at h
        obtain ⟨hv, hr⟩ := h
        subst hv
        subst hr
        simp only [hd b s a bs1 heq, ih bs1 s as2 bs2 heq2]
      · simp at h
    · simp at h

mutual

theorem decodeValue_extend : ∀ (sh : Shape) (e : Endian) (b s : List Nat)
    (v : Value) (r : List Nat), decodeValue sh e b = .ok (v, r) →
    decodeValue sh e (b ++ s) = .ok (v, r ++ s)
  | .unit, e, b, s, v, r, h => by
    simp only [decodeValue, Except.ok.injEq, Prod.mk.injEq] at h ⊢
    obtain ⟨hv, hr⟩ := h
    subst hv
    subst hr
    simp
  | .bool, e, b, s, v, r, h => by
    simp only [decodeValue] at h ⊢
    split at h
    · rename_i n bs1 heq
      simp only [Except.ok.injEq, Prod.mk.injEq] at h
      obtain ⟨hv, hr⟩ := h
      subst hv
      subst hr
      simp only [readUint_extend 1 e b s n bs1 heq]
    · simp at h
  | .uint w, e, b, s, v, r, h => by
    simp only [decodeValue] at h ⊢
    split at h
    · rename_i n bs1 heq
      simp only [Except.ok.injEq, Prod.mk.injEq] at h
      obtain ⟨hv, hr⟩ := h
      subst hv
      subst hr
      simp only [readUint_extend w.bytes e b s n bs1 heq]
    · simp at h
  | .sint w, e, b, s, v, r, h => by
    simp only [decodeValue] at h ⊢
    split at h
    · rename_i n bs1 heq
      simp only [Except.ok.injEq, Prod.mk.injEq] at h
      obtain ⟨hv, hr⟩ := h
      subst hv
      subst hr
      simp only [readUint_extend w.bytes e b s n bs1 heq]
    · simp at h
  | .f32, e, b, s, v, r, h => by
    simp only [decodeValue] at h ⊢
    split at h
    · rename_i n bs1 heq
      simp only [Except.ok.injEq, Prod.mk.injEq] at h
      obtain ⟨hv, hr⟩ := h
      subst hv
      subst hr
      simp only [readUint_extend 4 e b s n bs1 heq]
    · simp at h
  | .f64, e, b, s, v, r, h => by
    simp only [decodeValue] at h ⊢
    split at h
    · rename_i n bs1 heq
      simp only [Except.ok.injEq, Prod.mk.injEq] at h
      obtain ⟨hv, hr⟩ := h
      subst hv
      subst hr
      simp only [readUint_extend 8 e b s n bs1 heq]
    · simp at h
  | .char, e, b, s, v, r, h => by
    simp only [decodeValue] at h ⊢
    split at h
    · rename_i c bs1 heq
      split at h
      · rename_i hvalid
        simp only [Except.ok.injEq, Prod.mk.injEq] at h
        obtain ⟨hv, hr⟩ := h
        subst hv
        subst hr
        simp only [readUint_extend 4 e b s c bs1 heq, hvalid, if_true]
      · simp at h
    · simp at h
  | .str, e, b, s, v, r, h => by
    simp only [decodeValue] at h ⊢
    split at h
    · rename_i len bs1 heq
      split at h
      · rename_i chunk bs2 heq2
        simp only [Except.ok.injEq, Prod.mk.injEq] at h
        obtain ⟨hv, hr⟩ := h
        subst hv
        subst hr
        simp only [readUint_extend 4 e b s len bs1 heq,
          readExact_extend len bs1 s chunk bs2 heq2]
      · simp at h
    · simp at h
  | .bytes, e, b, s, v, r, h => by
    simp only [decodeValue] at h ⊢
    split at h
    · rename_i len bs1 heq
      split at h
      · rename_i chunk bs2 heq2
        simp only [Except.ok.injEq, Prod.mk.injEq] at h
        obtain ⟨hv, hr⟩ := h
        subst hv
        subst hr
        simp only [readUint_extend 4 e b s len bs1 heq,
          readExact_extend len bs1 s chunk bs2 heq2]
      · simp at h
    · simp at h
  | .opt sh, e, b, s, v, r, h => by
    simp only [decodeValue] at h ⊢
    split at h
    · rename_i bs1 heq
      simp only [Except.ok.injEq, Prod.mk.injEq] at h
      obtain ⟨hv, hr⟩ := h
      subst hv
      subst hr
      simp only [readUint_extend 1 e b s 0 bs1 heq]
    · rename_i bs1 heq
      split at h
      · rename_i v2 bs2 heq2
        simp only [Except.ok.injEq, Prod.mk.injEq] at h
        obtain ⟨hv, hr⟩ := h
        subst hv
        subst hr
        simp only [readUint_extend 1 e b s 1 bs1 heq,
          decodeValue_extend sh e bs1 s v2 bs2 heq2]
      · simp at h
    · simp at h
    · simp at h
  | .seq sh, e, b, s, v, r, h => by
    simp only [decodeValue] at h ⊢
    split at h
    · rename_i n bs1 heq
      split at h
      · rename_i vs bs2 heq2
        simp only [Except.ok.injEq, Prod.mk.injEq] at h
        obtain ⟨hv, hr⟩ := h
        subst hv
        subst hr
        have hext := decodeMany_extend (fun bb => decodeValue sh e bb)
          (fun bb ss aa rr hh => decodeValue_extend sh e bb ss aa rr hh)
          n bs1 s vs bs2 heq2
        simp only [readUint_extend 4 e b s n bs1 heq, hext]
      · simp at h
    · simp at h
  | .tuple ss, e, b, s, v, r, h => by
    simp only [decodeValue] at h ⊢
    split at h
    · rename_i vs bs1 heq
      simp only [Except.ok.injEq, Prod.mk.injEq] at h
      obtain ⟨hv, hr⟩ := h
      subst hv
      subst hr
      simp only [decodeShapes_extend ss e b s vs bs1 heq]
    · simp at h
  | .map ksh vsh, e, b, s, v, r, h => by
    simp only [decodeValue] at h ⊢
    split at h
    · rename_i n bs1 heq
      split at h
      · rename_i ps bs2 heq2
        simp only [Except.ok.injEq, Prod.mk.injEq] at h
        obtain ⟨hv, hr⟩ := h
        subst hv
        subst hr
        have hdp : ∀ (b2 s2 : List Nat) (a : Value × Value) (r2 : List Nat),
            (match decodeValue ksh e b2 with
             | .ok (k, b1) =>
               match decodeValue vsh e b1 with
               | .ok (v, b2) => .ok ((k, v), b2)
               | .error err => .error err
             | .error err => .error err : Except Error ((Value × Value) × List Nat)) =
              .ok (a, r2) →
            (match decodeValue ksh e (b2 ++ s2) with
             | .ok (k, b1) =>
               match decodeValue vsh e b1 with
               | .ok (v, b2) => .ok ((k, v), b2)
               | .error err => .error err
             | .error err => .error err : Except Error ((Value × Value) × List Nat)) =
              .ok (a, r2 ++ s2) := by
          intro b2 s2 a r2 hh
          split at hh
          · rename_i k b1 heqk
            split at hh
            · rename_i v2 bp2 heqv
              simp only [Except.ok.injEq, Prod.mk.injEq] at hh
              obtain ⟨hv2, hr2⟩ := hh
              subst hv2
              subst hr2
              simp only [decodeValue_extend ksh e b2 s2 k b1 heqk,
                decodeValue_extend vsh e b1 s2 v2 bp2 heqv]
            · simp at hh
          · simp at hh
        have hext := decodeMany_extend _ hdp n bs1 s ps bs2 heq2
        simp only [readUint_extend 4 e b s n bs1 heq, hext]
      · simp at h
    · simp at h
  | .unitStruct, e, b, s, v, r, h => by
    simp only [decodeValue, Except.ok.injEq, Prod.mk.injEq] at h ⊢
    obtain ⟨hv, hr⟩ := h
    subst hv
    subst hr
    simp
  | .newtypeStruct sh, e, b, s, v, r, h => by
    simp only [decodeValue] at h ⊢
    split at h
    · rename_i v2 bs1 heq
      simp only [Except.ok.injEq, Prod.mk.injEq] at h
      obtain ⟨hv, hr⟩ := h
      subst hv
      subst hr
      simp only [decodeValue_extend sh e b s v2 bs1 heq]
    · simp at h
  | .tupleStruct ss, e, b, s, v, r, h => by
    simp only [decodeValue] at h ⊢
    split at h
    · rename_i vs bs1 heq
      simp only [Except.ok.injEq, Prod.mk.injEq] at h
      obtain ⟨hv, hr⟩ := h
      subst hv
      subst hr
      simp only [decodeShapes_extend ss e b s vs bs1 heq]
    · simp at h
  | .record ss, e, b, s, v, r, h => by
    simp only [decodeValue] at h ⊢
    split at h
    · rename_i vs bs1 heq
      simp only [Except.ok.injEq, Prod.mk.injEq] at h
      obtain ⟨hv, hr⟩ := h
      subst hv
      subst hr
      simp only [decodeShapes_extend ss e b s vs bs1 heq]
    · simp at h
  | .enum vars, e, b, s, v, r, h => by
    simp only [decodeValue] at h ⊢
    split at h
    · rename_i idx bs1 heq
      split at h
      · rename_i p bs2 heq2
        simp only [Except.ok.injEq, Prod.mk.injEq] at h
        obtain ⟨hv, hr⟩ := h
        subst hv
        subst hr
        simp only [readUint_extend 4 e b s idx bs1 heq,
          decodeVariant_extend vars idx e bs1 s p bs2 heq2]
      · simp at h
    · simp at h
termination_by sh => sizeOf sh

theorem decodeShapes_extend : ∀ (ss : List Shape) (e : Endian) (b s : List Nat)
    (vs : List Value) (r : List Nat), decodeShapes ss e b = .ok (vs, r) →
    decodeShapes ss e (b ++ s) = .ok (vs, r ++ s)
  | [], e, b, s, vs, r, h => by
    simp only [decodeShapes, Except.ok.injEq, Prod.mk.injEq] at h ⊢
    obtain ⟨hv, hr⟩ := h
    subst hv
    subst hr
    simp
  | sh :: ss, e, b, s, vs, r, h => by
    simp only [decodeShapes] at h ⊢
    split at h
    · rename_i v bs1 heq
      split at h
      · rename_i vs2 bs2 heq2
        simp only [Except.ok.injEq, Prod.mk.injEq] at h
        obtain ⟨hv, hr⟩ := h
        subst hv
        subst hr
        simp only [decodeValue_extend sh e b s v bs1 heq,
          decodeShapes_extend ss e bs1 s vs2 bs2 heq2]
      · simp at h
    · simp at h
termination_by ss => sizeOf ss

theorem decodeVariant_extend : ∀ (vars : List Shape) (idx : Nat) (e : Endian)
    (b s : List Nat) (p : Value) (r : List Nat),
    decodeVariant vars idx e b = .ok (p, r) →
    decodeVariant vars idx e (b ++ s) = .ok (p, r ++ s)
  | [], idx, e, b, s, p, r, h => by simp [decodeVariant] at h
  | sh :: rest', 0, e, b, s, p, r, h => by
    simp only [decodeVariant] at h ⊢
    exact decodeValue_extend sh e b s p r h
  | sh :: rest', n + 1, e, b, s, p, r, h => by
    simp only [decodeVariant] at h ⊢
    exact decodeVariant_extend rest' n e b s p r h
termination_by vars => sizeOf vars

end

/-! ## Success of a write sequence when every element writes successfully. -/

theorem serValues_isOk (vs : List Value) (e : Endian)
    (h : ∀ v, v ∈ vs → isOkResult (serValue v e []) = true) :
    ∀ s : List Nat, isOkResult (serValues vs e s) = true := by
  induction vs with
  | nil => intro s; simp [serValues, isOkResult]
  | cons v vs ih =>
    intro s
    simp only [serValues]
    have hv : isOkResult (serValue v e []) = true := h v (by simp)
    rw [serValue_append v e s]
    cases hx : serValue v e [] with
    | ok out =>
      simp only [emap_ok]
      exact ih (fun u hu => h u (by simp [hu])) (s ++ out)
    | error err => rw [hx] at hv; simp [isOkResult] at hv

theorem serPairs_isOk (ps : List (Value × Value)) (e : Endian)
    (h : ∀ p, p ∈ ps → isOkResult (serValue p.1 e []) = true ∧
      isOkResult (serValue p.2 e []) = true) :
    ∀ s : List Nat, isOkResult (serPairs ps e s) = true := by
  induction ps with
  | nil => intro s; simp [serPairs, isOkResult]
  | cons kv ps ih =>
    obtain ⟨k, v⟩ := kv
    intro s
    simp only [serPairs]
    have hk : isOkResult (serValue k e []) = true := (h (k, v) (by simp)).1
    have hv : isOkResult (serValue v e []) = true := (h (k, v) (by simp)).2
    rw [serValue_append k e s]
    cases hx : serValue k e [] with
    | ok out1 =>
      simp only [emap_ok]
      rw [serValue_append v e (s ++ out1)]
      cases hy : serValue v e [] with
      | ok out2 =>
        simp only [emap_ok]
        exact ih (fun p hp => h p (by simp [hp])) (s ++ out1 ++ out2)
      | error err => rw [hy] at hv; simp [isOkResult] at hv
    | error err => rw [hx] at hk; simp [isOkResult] at hk

/-! ## Claims -/

/-- Claim C1: for every value of every supported shape (well-formedness
states that the value inhabits the shape with payloads in range, which the
Rust types guarantee) and for both endianness settings, decoding the buffer
produced by encoding yields the original value:
`from_vec (to_vec v e) e = Ok v`. -/
theorem roundtrip_from_vec_to_vec (sh : Shape) (v : Value) (e : Endian)
    (h : wf sh v = true) :
    ∃ buffer, to_vec v e = .ok buffer ∧ from_vec sh buffer e = .ok v := by
  obtain ⟨out, hser, hdec⟩ := rt_value v sh e h
  refine ⟨out, by simpa [to_vec] using hser, ?_⟩
  have hd := hdec []
  rw [List.append_nil] at hd
  simp [from_vec, hd]

/-- Witness for C1 at a concrete tuple value, little-endian. -/
theorem roundtrip_from_vec_to_vec_witness :
    wf (Shape.tuple [Shape.bool, Shape.uint Width.w32])
      (Value.tuple [Value.bool true, Value.uint Width.w32 32]) = true ∧
    ∃ buffer,
      to_vec (Value.tuple [Value.bool true, Value.uint Width.w32 32])
        Endian.little = .ok buffer ∧
      from_vec (Shape.tuple [Shape.bool, Shape.uint Width.w32]) buffer
        Endian.little =
        .ok (Value.tuple [Value.bool true, Value.uint Width.w32 32]) :=
  ⟨by simp [wf, wfList, Width.bytes],
   roundtrip_from_vec_to_vec _ _ _ (by simp [wf, wfList, Width.bytes])⟩

/-- Claim C2: the manual-codec entry points fix big-endian: `encode` runs
the implementation with a big-endian writer on a fresh buffer, and `decode`
runs the implementation on a default-constructed instance with a big-endian
reader, returning the mutated instance on success.  The two concrete
conjuncts exhibit the big-endian byte order on a 16-bit value. -/
theorem encode_decode_big_endian :
    (∀ (α : Type) (encFn : α → Endian → List Nat → Except Error (List Nat))
      (x : α), encode encFn x = encFn x Endian.big []) ∧
    (∀ (α : Type) (dflt : α)
      (decFn : α → Endian → List Nat → Except Error (α × List Nat))
      (buffer : List Nat),
      decode dflt decFn buffer =
        match decFn dflt Endian.big buffer with
        | .ok (x, _) => .ok x
        | .error err => .error err) ∧
    encode (fun (v : Value) (e : Endian) (st : List Nat) => serValue v e st)
      (Value.uint Width.w16 1) = .ok [0, 1] ∧
    decode Value.unit
      (fun (_ : Value) (e : Endian) (bs : List Nat) =>
        decodeValue (Shape.uint Width.w16) e bs)
      [0, 1] = .ok (Value.uint Width.w16 1) := by
  refine ⟨fun α encFn x => rfl, fun α dflt decFn buffer => rfl, ?_, ?_⟩
  · simp [encode, serValue, writeUint, natToBytesLE, Width.bytes]
  · simp [decode, decodeValue, readUint, readExact, bytesToNatLE, Width.bytes]

/-- Claim C3: every length-prefixed construct (string, byte sequence,
sequence, map) fails with `TooManyItems` at length `2 ^ 32` or more, and
succeeds at length exactly `2 ^ 32 - 1` (for sequences and maps, provided
each element itself encodes, as the byte and string payloads trivially do). -/
theorem length_limit (e : Endian) :
    (∀ l : List Nat, 2 ^ 32 ≤ l.length →
      to_vec (Value.str l) e = .error Error.TooManyItems) ∧
    (∀ l : List Nat, 2 ^ 32 ≤ l.length →
      to_vec (Value.bytes l) e = .error Error.TooManyItems) ∧
    (∀ vs : List Value, 2 ^ 32 ≤ vs.length →
      to_vec (Value.seq vs) e = .error Error.TooManyItems) ∧
    (∀ ps : List (Value × Value), 2 ^ 32 ≤ ps.length →
      to_vec (Value.map ps) e = .error Error.TooManyItems) ∧
    (∀ l : List Nat, l.length = 2 ^ 32 - 1 →
      isOkResult (to_vec (Value.str l) e) = true) ∧
    (∀ l : List Nat, l.length = 2 ^ 32 - 1 →
      isOkResult (to_vec (Value.bytes l) e) = true) ∧
    (∀ vs : List Value, vs.length = 2 ^ 32 - 1 →
      (∀ v, v ∈ vs → isOkResult (serValue v e []) = true) →
      isOkResult (to_vec (Value.seq vs) e) = true) ∧
    (∀ ps : List (Value × Value), ps.length = 2 ^ 32 - 1 →
      (∀ p, p ∈ ps → isOkResult (serValue p.1 e []) = true ∧
        isOkResult (serValue p.2 e []) = true) →
      isOkResult (to_vec (Value.map ps) e) = true) := by
  have hp : 0 < (2 : Nat) ^ 32 := by positivity
  refine ⟨fun l hl => ?_, fun l hl => ?_, fun vs hl => ?_, fun ps hl => ?_,
    fun l hl => ?_, fun l hl => ?_, fun vs hl hall => ?_, fun ps hl hall => ?_⟩
  · simp only [to_vec, serValue]
    rw [if_neg (by omega)]
  · simp only [to_vec, serValue]
    rw [if_neg (by omega)]
  · simp only [to_vec, serValue]
    rw [if_neg (by omega)]
  · simp only [to_vec, serValue]
    rw [if_neg (by omega)]
  · simp only [to_vec, serValue]
    rw [if_pos (by omega)]
    simp [isOkResult]
  · simp only [to_vec, serValue]
    rw [if_pos (by omega)]
    simp [isOkResult]
  · simp only [to_vec, serValue]
    rw [if_pos (by omega)]
    exact serValues_isOk vs e hall _
  · simp only [to_vec, serValue]
    rw [if_pos (by omega)]
    exact serPairs_isOk ps e hall _

/-- Witness for C3 at concrete replicated payloads of lengths `2 ^ 32` and
`2 ^ 32 - 1`, little-endian. -/
theorem length_limit_witness :
    to_vec (Value.str (List.replicate (2 ^ 32) 0)) Endian.little =
      .error Error.TooManyItems ∧
    to_vec (Value.bytes (List.replicate (2 ^ 32) 0)) Endian.little =
      .error Error.TooManyItems ∧
    to_vec (Value.seq (List.replicate (2 ^ 32) Value.unit)) Endian.little =
      .error Error.TooManyItems ∧
    to_vec (Value.map (List.replicate (2 ^ 32) (Value.unit, Value.unit)))
      Endian.little = .error Error.TooManyItems ∧
    isOkResult (to_vec (Value.str (List.replicate (2 ^ 32 - 1) 0))
      Endian.little) = true ∧
    isOkResult (to_vec (Value.bytes (List.replicate (2 ^ 32 - 1) 0))
      Endian.little) = true ∧
    isOkResult (to_vec (Value.seq (List.replicate (2 ^ 32 - 1) Value.unit))
      Endian.little) = true ∧
    isOkResult (to_vec (Value.map
      (List.replicate (2 ^ 32 - 1) (Value.unit, Value.unit)))
      Endian.little) = true :=
  ⟨(length_limit Endian.little).1 _ (by rw [List.length_replicate]),
   (length_limit Endian.little).2.1 _ (by rw [List.length_replicate]),
   (length_limit Endian.little).2.2.1 _ (by rw [List.length_replicate]),
   (length_limit Endian.little).2.2.2.1 _ (by rw [List.length_replicate]),
   (length_limit Endian.little).2.2.2.2.1 _ (by rw [List.length_replicate]),
   (length_limit Endian.little).2.2.2.2.2.1 _ (by rw [List.length_replicate]),
   (length_limit Endian.little).2.2.2.2.2.2.1 _ (by rw [List.length_replicate])
     (fun v hv => by rw [List.eq_of_mem_replicate hv]; simp [serValue, isOkResult]),
   (length_limit Endian.little).2.2.2.2.2.2.2 _ (by rw [List.length_replicate])
     (fun p hp => by
       rw [List.eq_of_mem_replicate hp]
       simp [serValue, isOkResult])⟩

/-- Claim C4: the error type has exactly three non-overlapping kinds;
`Message` carries only a string, `TooManyItems` carries nothing, and
`Binary` wraps a stream error and re-surfaces it unaltered: its display is
the wrapped error's display, and every `binary_rw` error converts into
`Error.Binary`. -/
theorem error_taxonomy :
    (∀ err : Error, (∃ s, err = Error.Message s) ∨ err = Error.TooManyItems ∨
      ∃ b, err = Error.Binary b) ∧
    (∀ s, Error.Message s ≠ Error.TooManyItems) ∧
    (∀ s b, Error.Message s ≠ Error.Binary b) ∧
    (∀ b, Error.TooManyItems ≠ Error.Binary b) ∧
    (∀ b : BinaryError, (Error.Binary b).display = b.display) ∧
    (∀ b : BinaryError, Error.fromBinary b = Error.Binary b) := by
  refine ⟨fun err => ?_, fun s => by simp, fun s b => by simp, fun b => by simp,
    fun b => rfl, fun b => rfl⟩
  cases err with
  | Message s => exact Or.inl ⟨s, rfl⟩
  | TooManyItems => exact Or.inr (Or.inl rfl)
  | Binary b => exact Or.inr (Or.inr ⟨b, rfl⟩)

/-- Witness for C4 at concrete errors. -/
theorem error_taxonomy_witness :
    (Error.Binary (BinaryError.Custom "stream failed")).display =
      (BinaryError.Custom "stream failed").display ∧
    Error.Message "m" ≠ Error.TooManyItems :=
  ⟨error_taxonomy.2.2.2.2.1 (BinaryError.Custom "stream failed"),
   error_taxonomy.2.1 "m"⟩

/-- Claim C5: the caller-supplied failure constructor on both the
serialization and the deserialization side produces `Error.Message` holding
exactly the display string of the message, never the `TooManyItems` or
`Binary` kind. -/
theorem custom_is_message (α : Type) (disp : α → String) (m : α) :
    Error.serCustom disp m = Error.Message (disp m) ∧
    Error.deCustom disp m = Error.Message (disp m) ∧
    Error.serCustom disp m ≠ Error.TooManyItems ∧
    (∀ b, Error.serCustom disp m ≠ Error.Binary b) ∧
    Error.deCustom disp m ≠ Error.TooManyItems ∧
    (∀ b, Error.deCustom disp m ≠ Error.Binary b) := by
  refine ⟨rfl, rfl, by simp [Error.serCustom], fun b => by simp [Error.serCustom],
    by simp [Error.deCustom], fun b => by simp [Error.deCustom]⟩

/-- Witness for C5 at a concrete message. -/
theorem custom_is_message_witness :
    Error.serCustom (fun s : String => s) "boom" = Error.Message "boom" ∧
    Error.deCustom (fun s : String => s) "boom" = Error.Message "boom" ∧
    Error.serCustom (fun s : String => s) "boom" ≠ Error.TooManyItems ∧
    (∀ b, Error.serCustom (fun s : String => s) "boom" ≠ Error.Binary b) ∧
    Error.deCustom (fun s : String => s) "boom" ≠ Error.TooManyItems ∧
    (∀ b, Error.deCustom (fun s : String => s) "boom" ≠ Error.Binary b) :=
  custom_is_message String (fun s => s) "boom"

/-- Claim C6: encoding is stateless across calls and deterministic.  In the
embedding `to_vec` is a pure function, so equal inputs give equal buffers;
the two conjuncts capture the code's mechanism: every call starts from a
fresh empty stream, and the serializer's output does not depend on whatever
a previous call left in a stream (writes only append). -/
theorem to_vec_stateless (v : Value) (e : Endian) (s : List Nat) :
    to_vec v e = serValue v e [] ∧
    serValue v e s = (serValue v e []).map (fun out => s ++ out) :=
  ⟨rfl, serValue_append v e s⟩

/-- Claim C7: an absent option encodes to exactly the single byte 0, and a
present option to the single byte 1 followed by the nested value's
encoding. -/
theorem option_layout :
    (∀ e : Endian, to_vec Value.optNone e = .ok [0]) ∧
    (∀ (v : Value) (e : Endian),
      to_vec (Value.optSome v) e = (to_vec v e).map (fun out => 1 :: out)) := by
  constructor
  · intro e
    simp [to_vec, serValue]
  · intro v e
    simp only [to_vec, serValue, List.nil_append]
    rw [serValue_append v e [1]]
    cases h : serValue v e [] <;> simp [emap_ok, emap_error]

/-- Claim C8: an enum value encodes as the 4-byte variant ordinal followed
by the payload's encoding; concretely the third declared variant (ordinal 2)
carrying `u32` payload 5 encodes little-endian to
`[2, 0, 0, 0, 5, 0, 0, 0]` and decodes back to the same variant and
payload. -/
theorem enum_layout :
    (∀ (idx : Nat) (p : Value) (e : Endian), idx < 2 ^ 32 →
      to_vec (Value.enum idx p) e =
        (to_vec p e).map (fun out => writeUint 4 e idx ++ out)) ∧
    to_vec (Value.enum 2 (Value.uint Width.w32 5)) Endian.little =
      .ok [2, 0, 0, 0, 5, 0, 0, 0] ∧
    from_vec (Shape.enum [Shape.unit, Shape.unit, Shape.uint Width.w32])
      [2, 0, 0, 0, 5, 0, 0, 0] Endian.little =
      .ok (Value.enum 2 (Value.uint Width.w32 5)) := by
  refine ⟨fun idx p e hidx => ?_, ?_, ?_⟩
  · simp only [to_vec, serValue, List.nil_append]
    rw [serValue_append p e (writeUint 4 e idx)]
  · simp [to_vec, serValue, writeUint, natToBytesLE, Width.bytes]
  · simp [from_vec, decodeValue, decodeVariant, readUint, readExact,
      bytesToNatLE, Width.bytes]

/-- Witness for C8 at ordinal 2 with a `u32` payload, little-endian. -/
theorem enum_layout_witness :
    2 < 2 ^ 32 ∧
    to_vec (Value.enum 2 (Value.uint Width.w32 5)) Endian.little =
      (to_vec (Value.uint Width.w32 5) Endian.little).map
        (fun out => writeUint 4 Endian.little 2 ++ out) :=
  ⟨by norm_num,
   enum_layout.1 2 (Value.uint Width.w32 5) Endian.little (by norm_num)⟩

/-- Claim C9: decoding never raises the length-limit error: for every input
buffer, endianness and target shape, `from_vec` does not return
`TooManyItems` (a stored count is read back as an unsigned 32-bit value,
not compared against a limit). -/
theorem from_vec_never_too_many_items (sh : Shape) (e : Endian)
    (bs : List Nat) : isTooManyItemsResult (from_vec sh bs e) = false := by
  unfold from_vec
  cases hx : decodeValue sh e bs with
  | ok vr =>
    obtain ⟨v, r⟩ := vr
    simp [isTooManyItemsResult]
  | error err =>
    have hne := decodeValue_notTMI sh e bs
    rw [hx] at hne
    cases err with
    | Message s => simp [isTooManyItemsResult]
    | TooManyItems => exact absurd rfl hne
    | Binary b => simp [isTooManyItemsResult]

/-- Claim C10: neither decode entry point requires the buffer to be fully
consumed: a successful `from_vec` stays successful with the same value when
bytes are appended, and `decode` likewise whenever its `Decode`
implementation is (like every decoder built on the generic machinery) a
prefix decoder. -/
theorem trailing_bytes_ignored :
    (∀ (sh : Shape) (e : Endian) (b s : List Nat) (v : Value),
      from_vec sh b e = .ok v → from_vec sh (b ++ s) e = .ok v) ∧
    (∀ (α : Type) (dflt : α)
      (decFn : α → Endian → List Nat → Except Error (α × List Nat)),
      (∀ (b s : List Nat) (x : α) (r : List Nat),
        decFn dflt Endian.big b = .ok (x, r) →
        decFn dflt Endian.big (b ++ s) = .ok (x, r ++ s)) →
      ∀ (b s : List Nat) (x : α),
        decode dflt decFn b = .ok x → decode dflt decFn (b ++ s) = .ok x) := by
  constructor
  · intro sh e b s v h
    unfold from_vec at h ⊢
    cases hx : decodeValue sh e b with
    | ok vr =>
      obtain ⟨v2, r⟩ := vr
      rw [hx] at h
      simp only [Except.ok.injEq] at h
      subst h
      rw [decodeValue_extend sh e b s v2 r hx]
    | error err =>
      rw [hx] at h
      simp at h
  · intro α dflt decFn hst b s x h
    unfold decode at h ⊢
    cases hx : decFn dflt Endian.big b with
    | ok xr =>
      obtain ⟨x2, r⟩ := xr
      rw [hx] at h
      simp only [Except.ok.injEq] at h
      subst h
      rw [hst b s x2 r hx]
    | error err =>
      rw [hx] at h
      simp at h

/-- Witness for C10: a decoded boolean survives two appended trailing
bytes. -/
theorem trailing_bytes_ignored_witness :
    from_vec Shape.bool [1] Endian.little = .ok (Value.bool true) ∧
    from_vec Shape.bool ([1] ++ [7, 7]) Endian.little = .ok (Value.bool true) :=
  ⟨by simp [from_vec, decodeValue, readUint, readExact, bytesToNatLE],
   trailing_bytes_ignored.1 Shape.bool Endian.little [1] [7, 7]
     (Value.bool true)
     (by simp [from_vec, decodeValue, readUint, readExact, bytesToNatLE])⟩

end SerdeBinary
